import Mathlib

/-!
Verification development for the ffstuff repository (src/ffautocrop.py and
src/utils.py).  The Python source is shallowly embedded: Python floats are
modelled as rationals with the rounding performed by the source made explicit
(`rnd` models Python's built-in round-half-even to an integer, `round3` models
round(x, 3)); `collections.Counter` is modelled as an insertion-ordered
association list with the exact increment/update/most_common(1) behaviour of
CPython; fallible code returns `Except`.  External processes (ffmpeg/ffprobe
invocations) are inputs or recorded trace events: the duration probe's result
is a parameter, and `cropdetect_video_run` records which external processes
have been spawned before each validation failure.
-/

namespace FF

/-- Python's built-in round(x) on a rational: round to the nearest integer,
ties going to the even integer (CPython banker's rounding). -/
def rnd (q : ℚ) : ℤ :=
  if q - (Int.floor q : ℚ) < 1/2 then Int.floor q
  else if (1:ℚ)/2 < q - (Int.floor q : ℚ) then Int.floor q + 1
  else if Even (Int.floor q) then Int.floor q else Int.floor q + 1

/-- Python's round(x, 3) (millisecond rounding in the source): round to the
nearest multiple of 1/1000. -/
def round3 (q : ℚ) : ℚ := (rnd (q * 1000) : ℚ) / 1000

/-! ### Counter: the model of collections.Counter

A Counter is an insertion-ordered association list with unique keys.  `incr`
is `self[k] += n` (bump in place, append at the end when the key is new);
`update` is Counter.update with another counter (iterate the argument's items
in their insertion order); `counterOf` is Counter(iterable);
`mostCommon1` is most_common(1): for n = 1 CPython's heapq.nlargest takes
max(items), which returns the first item in insertion order whose count is
maximal. -/

abbrev FreqTable (α : Type) := List (α × ℕ)

section Counter

variable {α : Type} [DecidableEq α]

/-- Counter lookup: the count stored for a key, 0 when absent. -/
def count : FreqTable α → α → ℕ
  | [], _ => 0
  | (k, n) :: t, a => if k = a then n else count t a

/-- self[a] += n : bump the entry in place, append a new entry when absent. -/
def incr : FreqTable α → α → ℕ → FreqTable α
  | [], a, n => [(a, n)]
  | (k, m) :: t, a, n => if k = a then (k, m + n) :: t else (k, m) :: incr t a n

/-- Counter.update(other): fold `self[k] += v` over the other counter's items
in their insertion order. -/
def update (t s : FreqTable α) : FreqTable α := s.foldl (fun acc e => incr acc e.1 e.2) t

/-- Counter(iterable): count the elements one by one. -/
def counterOf (l : List α) : FreqTable α := l.foldl (fun acc a => incr acc a 1) []

/-- The keys of a table in insertion order. -/
def keys (t : FreqTable α) : List α := t.map Prod.fst

/-- most_common(1) (as a single optional item): the first item in insertion
order whose count is maximal, none for the empty counter. -/
def mostCommon1 (t : FreqTable α) : Option (α × ℕ) :=
  t.find? fun e => t.all fun f => f.2 ≤ e.2

/-- The aggregation loop of cropdetect_video: starting from an empty counter,
update with each chunk's counter, in canonical chunk-index order (the order
of ThreadPool.map results, which is the input order, not completion order). -/
def cropdetect_counter (chunks : List (List α)) : FreqTable α :=
  (chunks.map counterOf).foldl update []

/-- Sum of the counts stored for a key over all entries (equals `count` when
the keys are unique). -/
def entrySum (t : FreqTable α) (a : α) : ℕ :=
  (t.map fun e => if e.1 = a then e.2 else 0).sum

/-- Well-formedness of a table: keys are unique (true of every real Counter). -/
def WfT (t : FreqTable α) : Prop := (keys t).Nodup

instance (t : FreqTable α) : Decidable (WfT t) :=
  inferInstanceAs (Decidable ((keys t).Nodup))

/-- Number of occurrences of an element in a list of observations. -/
def countR (a : α) (l : List α) : ℕ := (l.filter fun b => b = a).length

/-- Index of the first occurrence of an element (length when absent). -/
def firstIdx (a : α) : List α → ℕ
  | [] => 0
  | b :: l => if b = a then 0 else firstIdx a l + 1

end Counter

/-! ### The data model of the crop pipeline -/

/-- A crop rectangle as parsed from a `crop=W:H:X:Y` detection event
(four nonnegative integers, in the source's out_width / out_height /
start_crop_x / start_crop_y order). -/
structure Rect where
  outWidth : ℕ
  outHeight : ℕ
  startX : ℕ
  startY : ℕ
  deriving DecidableEq, Repr

inductive CropOutcome
  | Skip
  | Apply (r : Rect)
  deriving DecidableEq, Repr

/-- The crop-vs-skip decision of crop_video (lines 133-139): compute
new_width/new_height by subtracting the rectangle's first two fields from the
probed dimensions and skip when both absolute differences are below 10. -/
def crop_decide (r : Rect) (current_width current_height : ℤ) : CropOutcome :=
  if |current_width - (current_width - (r.outWidth : ℤ))| < 10 ∧
      |current_height - (current_height - (r.outHeight : ℤ))| < 10 then .Skip
  else .Apply r

/-- The -filter:v argument built by crop_video: the four consensus fields
verbatim. -/
def crop_filter (r : Rect) : String :=
  "crop=" ++ toString r.outWidth ++ ":" ++ toString r.outHeight ++ ":" ++
    toString r.startX ++ ":" ++ toString r.startY

/-- The filter string an outcome sends to the encoder (none when skipping). -/
def outcomeFilter : CropOutcome → Option String
  | .Skip => none
  | .Apply r => some (crop_filter r)

inductive CropRunResult
  | noCropPoint
  | skipped
  | encoded (r : Rect)
  deriving DecidableEq, Repr

/-- The decision path of crop_video, given the frequency table produced by
sampling and the probed dimensions: empty table yields the "no crop point
found" outcome (return False, no output file); otherwise decide crop vs skip
on the most common rectangle.  Only `encoded` spawns the encoder and creates
the output file. -/
def crop_video_run (crop_points : FreqTable Rect) (current_width current_height : ℤ) :
    CropRunResult :=
  match mostCommon1 crop_points with
  | none => .noCropPoint
  | some (r, _) =>
    match crop_decide r current_width current_height with
    | .Skip => .skipped
    | .Apply r2 => .encoded r2

/-- The argument validation and exit-code logic of main (the finiteness check
on chunk_duration is not representable over ℚ, where every value is finite;
the remaining checks are modelled verbatim).  Returns the exit code and, when
validation passes, the crop_video outcome. -/
def main_run (output_path : String) (num_chunks : ℤ) (chunk_duration : ℚ)
    (crop_points : FreqTable Rect) (current_width current_height : ℤ) :
    ℕ × Option CropRunResult :=
  if output_path.length = 0 then (1, none)
  else if num_chunks ≤ 0 then (1, none)
  else if chunk_duration ≤ 0 then (1, none)
  else (0, some (crop_video_run crop_points current_width current_height))

/-! ### Chunk planning (get_cropdetect_chunk_starts) -/

inductive FfErr
  | invalidArg
  deriving DecidableEq, Repr

/-- The offset loop of get_cropdetect_chunk_starts: append round(current, 3)
and advance by chunk_size, num_chunks times. -/
def chunkStartsLoop : ℕ → ℚ → ℚ → List ℚ
  | 0, _, _ => []
  | n + 1, cur, cs => round3 cur :: chunkStartsLoop n (cur + cs) cs

/-- Model of get_cropdetect_chunk_starts; `duration` stands for the result of
the get_media_duration probe that the source performs internally. -/
def get_cropdetect_chunk_starts (duration : ℚ) (num_chunks : ℤ) : Except FfErr (List ℚ) :=
  if num_chunks ≤ 0 then .error .invalidArg
  else if round3 (duration / num_chunks) < 1 then .error .invalidArg
  else .ok (chunkStartsLoop num_chunks.toNat 0 (round3 (duration / num_chunks)))

instance {ε α : Type} [DecidableEq ε] [DecidableEq α] : DecidableEq (Except ε α)
  | .ok a, .ok b =>
    if h : a = b then .isTrue (congrArg Except.ok h)
    else .isFalse (fun c => h (Except.ok.inj c))
  | .ok _, .error _ => .isFalse (fun c => Except.noConfusion c)
  | .error _, .ok _ => .isFalse (fun c => Except.noConfusion c)
  | .error a, .error b =>
    if h : a = b then .isTrue (congrArg Except.error h)
    else .isFalse (fun c => h (Except.error.inj c))

/-! ### cropdetect_video with its external-process trace -/

/-- External processes spawned by the crop-detection run. -/
inductive ProcEv
  | probeDuration
  | detectChunk
  deriving DecidableEq, Repr

structure RunOut where
  trace : List ProcEv
  result : Except FfErr (ℚ × List ℚ)
  deriving DecidableEq

/-- Model of cropdetect_video up to the dispatch of the chunk analyses,
recording every external process spawned: the validation order of the source
is kept exactly (chunk-count and rounded-duration checks first, then the
duration probe, then the slot-size check, then a second probe inside
get_cropdetect_chunk_starts followed by its chunk-size check).  On success the
result carries the effective per-chunk analysis duration and the planned chunk
starts; one detectChunk process is spawned per start. -/
def cropdetect_video_run (num_cropdetect_chunks : ℤ)
    (cropdetect_chunk_duration duration : ℚ) : RunOut :=
  if num_cropdetect_chunks ≤ 0 then ⟨[], .error .invalidArg⟩
  else if round3 cropdetect_chunk_duration ≤ 0 then ⟨[], .error .invalidArg⟩
  else if ((rnd (duration / num_cropdetect_chunks) : ℤ) : ℚ) < 1/10 then
    ⟨[.probeDuration], .error .invalidArg⟩
  else
    match get_cropdetect_chunk_starts duration num_cropdetect_chunks with
    | .error e => ⟨[.probeDuration, .probeDuration], .error e⟩
    | .ok starts =>
      ⟨[.probeDuration, .probeDuration] ++ starts.map (fun _ => .detectChunk),
        .ok (min (round3 cropdetect_chunk_duration)
          ((rnd (duration / num_cropdetect_chunks) : ℤ) : ℚ), starts)⟩

/-! ### The duration probe (utils.get_media_duration)

The probe is modelled from the point where the `(?<=time=)\S+` tokens have
been extracted from the combined ffmpeg output: the input is that token list
in document order.  The source then sorts the tokens (Python string order =
lexicographic code-point order), takes the last (the maximum), checks it
against re.fullmatch of `\d+:\d+:\d+.\d+` -- note the UNESCAPED dot, which
matches any character -- splits on ':' into exactly (hours, minutes, seconds),
converts with float(), and returns hours*3600 + minutes*60 + seconds.  A
failed unpack or float() conversion raises a ValueError distinct from the
regex error. -/

/-- Python string `<` : lexicographic comparison of code points. -/
def strLtB : List Char → List Char → Bool
  | [], [] => false
  | [], _ :: _ => true
  | _ :: _, [] => false
  | a :: as, b :: bs => if a < b then true else if b < a then false else strLtB as bs

/-- One step of taking the maximum token. -/
def maxStep (acc : Option String) (s : String) : Option String :=
  match acc with
  | none => some s
  | some m => if strLtB m.toList s.toList then some s else some m

/-- sorted(tokens)[-1]: the maximum token (none when the list is empty). -/
def maxToken (ts : List String) : Option String := ts.foldl maxStep none

/-- Consume `\d+:` : a nonempty maximal digit run followed by a colon;
returns the remainder.  (Since `\d` cannot match `:`, the regex engine's
match of `\d+:` is exactly this.) -/
def afterDigitsColon (cs : List Char) : Option (List Char) :=
  if (cs.takeWhile Char.isDigit).isEmpty then none
  else
    match cs.dropWhile Char.isDigit with
    | c :: rest => if c = ':' then some rest else none
    | [] => none

/-- fullmatch of the tail `\d+.\d+` with an unescaped dot: some decomposition
into a nonempty digit run, one arbitrary character, and a nonempty digit run. -/
def tailAnyMatch (t : List Char) : Bool :=
  (List.range t.length).any fun i =>
    decide (0 < i) && (t.take i).all Char.isDigit && decide (i + 1 < t.length) &&
      (t.drop (i + 1)).all Char.isDigit

/-- fullmatch of the tail `\d+\.\d+` with a literal dot. -/
def tailDotMatch (t : List Char) : Bool :=
  (List.range t.length).any fun i =>
    decide (0 < i) && (t.take i).all Char.isDigit && decide (t.getD i ' ' = '.') &&
      decide (i + 1 < t.length) && (t.drop (i + 1)).all Char.isDigit

/-- re.fullmatch of the source's actual pattern `\d+:\d+:\d+.\d+` (the dot is
unescaped in the source, so it matches any character). -/
def matches_dur_any (s : String) : Bool :=
  match afterDigitsColon s.toList with
  | none => false
  | some r1 =>
    match afterDigitsColon r1 with
    | none => false
    | some t => tailAnyMatch t

/-- Modelled from the spec: the pattern `\d+:\d+:\d+\.\d+` with a literal dot
before the fractional part, as the spec describes the check.  Kept for
comparison with `matches_dur_any`, the pattern the code actually checks. -/
def matches_dur_spec (s : String) : Bool :=
  match afterDigitsColon s.toList with
  | none => false
  | some r1 =>
    match afterDigitsColon r1 with
    | none => false
    | some t => tailDotMatch t

/-- str.split(sep) for a single-character separator (Python semantics: empty
fields are kept, an empty string gives one empty field). -/
def splitOnChar (c : Char) (cs : List Char) : List (List Char) :=
  cs.foldr (fun a acc =>
    match acc with
    | [] => [[a]]
    | g :: rest => if a = c then [] :: g :: rest else (a :: g) :: rest) [[]]

/-- The natural number denoted by a digit string. -/
def natOfDigits (cs : List Char) : ℕ := cs.foldl (fun a c => a * 10 + (c.toNat - 48)) 0

/-- Python float() restricted to the unsigned plain decimal forms (digits,
digits.digits, digits., .digits) that the colon-separated fields of a matched
token can take here; every other input is modelled as a conversion failure.
(Python also accepts signs, exponents and named values, none of which change
the behaviour on the digit/any-character/digit fields produced by the match.) -/
def parseFloatL (cs : List Char) : Option ℚ :=
  match splitOnChar '.' cs with
  | [intp] =>
    if intp ≠ [] ∧ intp.all Char.isDigit then some ((natOfDigits intp : ℕ) : ℚ) else none
  | [intp, frac] =>
    if (intp ≠ [] ∨ frac ≠ []) ∧ intp.all Char.isDigit ∧ frac.all Char.isDigit then
      some ((natOfDigits intp : ℚ) + (natOfDigits frac : ℚ) / (10 : ℚ) ^ frac.length)
    else none
  | _ => none

inductive DurErr
  | noDuration
  | malformed
  | valueError
  deriving DecidableEq, Repr

/-- The computation get_media_duration performs on the chosen token: check it
against re.fullmatch of the source's pattern (unescaped dot), split on ':'
into exactly three float()-converted fields (any other arity or a failed
conversion is a ValueError, as in Python), and return
hours*3600 + minutes*60 + seconds. -/
def tokenSeconds (raw : String) : Except DurErr ℚ :=
  if matches_dur_any raw then
    match splitOnChar ':' raw.toList with
    | [hs, ms, ss] =>
      match parseFloatL hs, parseFloatL ms, parseFloatL ss with
      | some h, some m, some s => .ok (h * 3600 + m * 60 + s)
      | _, _, _ => .error .valueError
    | _ => .error .valueError
  else .error .malformed

/-- Model of utils.get_media_duration from the extracted time= token list:
take the lexicographically largest token, fail noDuration when there is none,
otherwise apply `tokenSeconds` to it. -/
def get_media_duration (timestamps : List String) : Except DurErr ℚ :=
  match maxToken timestamps with
  | none => .error .noDuration
  | some raw => tokenSeconds raw

/-! ### Arithmetic facts about the rounding functions -/

theorem rnd_intCast (m : ℤ) : rnd (m : ℚ) = m := by
  simp [rnd]

theorem rnd_le (q : ℚ) : (rnd q : ℚ) ≤ q + 1/2 := by
  have h1 : ((Int.floor q : ℤ) : ℚ) ≤ q := Int.floor_le q
  unfold rnd
  split_ifs <;> push_cast <;> linarith

theorem le_rnd (q : ℚ) : q - 1/2 ≤ (rnd q : ℚ) := by
  have h1 : q < ((Int.floor q : ℤ) : ℚ) + 1 := Int.lt_floor_add_one q
  unfold rnd
  split_ifs <;> push_cast <;> linarith

theorem round3_le (q : ℚ) : round3 q ≤ q + 1/2000 := by
  have h := rnd_le (q * 1000)
  unfold round3
  rw [div_le_iff (by norm_num : (0:ℚ) < 1000)]
  linarith

theorem le_round3 (q : ℚ) : q - 1/2000 ≤ round3 q := by
  have h := le_rnd (q * 1000)
  unfold round3
  rw [le_div_iff (by norm_num : (0:ℚ) < 1000)]
  linarith

theorem round3_div_intCast (m : ℤ) : round3 ((m : ℚ) / 1000) = (m : ℚ) / 1000 := by
  unfold round3
  rw [div_mul_cancel₀ _ (by norm_num : (1000:ℚ) ≠ 0), rnd_intCast]

theorem rnd_zero : rnd (0:ℚ) = 0 := by
  simpa using rnd_intCast 0

theorem round3_zero : round3 0 = 0 := by
  rw [round3, zero_mul, rnd_zero]
  norm_num

/-- round3 is the identity on natural multiples of a round3 value (every
planned offset is an exact multiple of the millisecond-rounded chunk size). -/
theorem round3_nat_mul_round3 (i : ℕ) (q : ℚ) :
    round3 ((i : ℚ) * round3 q) = (i : ℚ) * round3 q := by
  have h : (i : ℚ) * round3 q = (((i : ℤ) * rnd (q * 1000) : ℤ) : ℚ) / 1000 := by
    unfold round3
    push_cast
    ring
  rw [h, round3_div_intCast]

/-! ### The planner loop in closed form -/

theorem chunkStartsLoop_eq (n : ℕ) : ∀ cur cs : ℚ,
    chunkStartsLoop n cur cs = (List.range n).map fun i : ℕ => round3 (cur + (i : ℚ) * cs) := by
  induction n with
  | zero => intro cur cs; simp [chunkStartsLoop]
  | succ n ih =>
    intro cur cs
    rw [List.range_succ_eq_map, List.map_cons, List.map_map]
    show round3 cur :: chunkStartsLoop n (cur + cs) cs = _
    rw [ih]
    refine congrArg₂ List.cons (by norm_num) ?_
    refine List.map_congr_left fun i _ => ?_
    show round3 (cur + cs + (i : ℚ) * cs) = round3 (cur + ((i.succ : ℕ) : ℚ) * cs)
    push_cast
    ring_nf

theorem get_chunk_starts_ok (d : ℚ) (n : ℤ) (hn : 0 < n) (hcs : 1 ≤ round3 (d / n)) :
    get_cropdetect_chunk_starts d n =
      .ok ((List.range n.toNat).map fun i : ℕ => round3 ((i : ℚ) * round3 (d / n))) := by
  unfold get_cropdetect_chunk_starts
  rw [if_neg (by omega), if_neg (not_lt.mpr hcs), chunkStartsLoop_eq]
  refine congrArg Except.ok (List.map_congr_left fun i _ => ?_)
  rw [zero_add]

/-- Claim C5: for every duration > 0 and numChunks ≥ 1 with
round(duration/numChunks, 3) ≥ 1, the planner returns exactly numChunks
offsets, starting at 0, non-decreasing, each offset i*chunkSize rounded to
millisecond precision, with consecutive offsets spaced by the
millisecond-rounded chunk size. -/
theorem C5_plan_coverage (d : ℚ) (n : ℤ) (hd : 0 < d) (hn : 1 ≤ n)
    (hcs : 1 ≤ round3 (d / n)) :
    ∃ l, get_cropdetect_chunk_starts d n = .ok l ∧ l.length = n.toNat ∧
      l.head? = some 0 ∧
      (∀ i, (hi : i < l.length) → l[i] = round3 ((i : ℚ) * round3 (d / n))) ∧
      (∀ i, (hi : i + 1 < l.length) → l[i + 1] = l[i] + round3 (d / n)) ∧
      List.Chain' (· ≤ ·) l := by
  refine ⟨_, get_chunk_starts_ok d n (by omega) hcs, ?_, ?_, ?_, ?_, ?_⟩
  · simp
  · obtain ⟨k, hk⟩ : ∃ k, n.toNat = k + 1 := ⟨n.toNat - 1, by omega⟩
    rw [hk, List.range_succ_eq_map, List.map_cons, List.head?_cons]
    norm_num [round3_zero]
  · intro i hi
    simp only [List.getElem_map, List.getElem_range]
  · intro i hi
    simp only [List.length_map, List.length_range] at hi
    simp only [List.getElem_map, List.getElem_range]
    rw [round3_nat_mul_round3, round3_nat_mul_round3]
    push_cast
    ring
  · rw [List.chain'_iff_get]
    intro i hi
    simp only [List.length_map, List.length_range] at hi
    simp only [List.get_eq_getElem, List.getElem_map, List.getElem_range]
    rw [round3_nat_mul_round3, round3_nat_mul_round3]
    have h0 : (0:ℚ) ≤ round3 (d / n) := by linarith
    have h2 : (i : ℚ) ≤ (i : ℚ) + 1 := by linarith
    push_cast
    nlinarith

/-- Witness for C5 at duration 100, ten chunks. -/
theorem C5_plan_coverage_witness :
    (0:ℚ) < 100 ∧ (1:ℤ) ≤ 10 ∧ (1:ℚ) ≤ round3 ((100:ℚ) / ((10:ℤ):ℚ)) ∧
      (∃ l, get_cropdetect_chunk_starts 100 10 = .ok l ∧ l.length = (10:ℤ).toNat ∧
        l.head? = some 0 ∧
        (∀ i, (hi : i < l.length) → l[i] = round3 ((i : ℚ) * round3 ((100:ℚ) / ((10:ℤ):ℚ)))) ∧
        (∀ i, (hi : i + 1 < l.length) → l[i + 1] = l[i] + round3 ((100:ℚ) / ((10:ℤ):ℚ))) ∧
        List.Chain' (· ≤ ·) l) :=
  ⟨by norm_num, by norm_num, by norm_num [round3, rnd],
    C5_plan_coverage 100 10 (by norm_num) (by norm_num) (by norm_num [round3, rnd])⟩

/-- Claim C7 (amended): provided numChunks ≤ 1999, every offset of a
successfully produced plan is strictly below the video duration.  (At
numChunks = 2000 the last offset can reach the duration exactly; see the
counterexample.) -/
theorem C7_amended (d : ℚ) (n : ℤ) (l : List ℚ) (hd : 0 < d) (hn : 1 ≤ n)
    (hn2 : n ≤ 1999) (hok : get_cropdetect_chunk_starts d n = .ok l) :
    ∀ x ∈ l, x < d := by
  unfold get_cropdetect_chunk_starts at hok
  rw [if_neg (by omega)] at hok
  by_cases hcs : round3 (d / n) < 1
  · rw [if_pos hcs] at hok
    exact absurd hok (by simp)
  · rw [if_neg hcs] at hok
    have hl : chunkStartsLoop n.toNat 0 (round3 (d / n)) = l := Except.ok.inj hok
    intro x hx
    rw [← hl, chunkStartsLoop_eq] at hx
    obtain ⟨i, hi, hxi⟩ := List.mem_map.mp hx
    rw [List.mem_range] at hi
    rw [zero_add] at hxi
    rw [round3_nat_mul_round3] at hxi
    subst hxi
    have hcs1 : (1:ℚ) ≤ round3 (d / n) := not_lt.mp hcs
    have hcsle : round3 (d / n) ≤ d / n + 1/2000 := round3_le (d / n)
    have hq : (1999:ℚ)/2000 ≤ d / n := by linarith
    have hn0 : ((n:ℤ):ℚ) ≠ 0 := by
      simp only [ne_eq, Int.cast_eq_zero]
      omega
    have hd2 : ((n:ℤ):ℚ) * (d / n) = d := by
      field_simp
    have hiq : (i : ℚ) ≤ ((n:ℤ):ℚ) - 1 := by
      have : (i : ℤ) ≤ n - 1 := by omega
      calc (i : ℚ) = ((i : ℤ) : ℚ) := by push_cast; ring
        _ ≤ ((n - 1 : ℤ) : ℚ) := by exact_mod_cast this
        _ = ((n:ℤ):ℚ) - 1 := by push_cast; ring
    have hnq : ((n:ℤ):ℚ) ≤ 1999 := by exact_mod_cast hn2
    have hnq1 : (1:ℚ) ≤ ((n:ℤ):ℚ) := by exact_mod_cast hn
    have h1 : (i : ℚ) * round3 (d / n) ≤ (((n:ℤ):ℚ) - 1) * round3 (d / n) :=
      mul_le_mul_of_nonneg_right hiq (by linarith)
    have h2 : (((n:ℤ):ℚ) - 1) * round3 (d / n) ≤ (((n:ℤ):ℚ) - 1) * (d / n + 1/2000) :=
      mul_le_mul_of_nonneg_left hcsle (by linarith)
    have h3 : (((n:ℤ):ℚ) - 1) * (d / n + 1/2000) < d := by
      have hlt : (((n:ℤ):ℚ) - 1) / 2000 < d / n := by linarith
      nlinarith [hd2]
    linarith

/-- Witness for the amended C7 at duration 60, four chunks. -/
theorem C7_amended_witness :
    (0:ℚ) < 60 ∧ (1:ℤ) ≤ 4 ∧ (4:ℤ) ≤ 1999 ∧
      get_cropdetect_chunk_starts 60 4 = .ok [0, 15, 30, 45] ∧
      ∀ x ∈ ([0, 15, 30, 45] : List ℚ), x < 60 := by
  have hplan : get_cropdetect_chunk_starts 60 4 = .ok [0, 15, 30, 45] := by
    rw [get_chunk_starts_ok 60 4 (by norm_num) (by norm_num [round3, rnd]),
      (by simp : (4:ℤ).toNat = 4)]
    norm_num [List.range_succ, round3, rnd]
  exact ⟨by norm_num, by norm_num, by norm_num, hplan,
    C7_amended 60 4 [0, 15, 30, 45] (by norm_num) (by norm_num) (by norm_num) hplan⟩

/-- Counterexample to C7 as stated: at duration 1999 s and 2000 chunks the
plan succeeds (chunk size rounds up to exactly 1 s) and its last offset
equals the duration, so it is not strictly less than the duration. -/
theorem C7_counterexample :
    ∃ l, get_cropdetect_chunk_starts 1999 2000 = Except.ok l ∧ (1999:ℚ) ∈ l ∧
      ¬((1999:ℚ) < (1999:ℚ)) := by
  refine ⟨_, get_chunk_starts_ok 1999 2000 (by norm_num)
    (by norm_num [round3, rnd, Int.even_iff]), ?_, by norm_num⟩
  refine List.mem_map.mpr ⟨1999, List.mem_range.mpr (by norm_num), ?_⟩
  norm_num [round3, rnd, Int.even_iff]

/-! ### Validation order and effective analysis duration (C2, C6) -/

/-- Claim C2 (amended): invalid chunk count and non-positive (after
millisecond rounding) analysis duration are rejected before any external
process is spawned; the slot-size (< 0.1 s) and chunk-size (< 1 s) conditions
are checked only after the duration probe has been spawned (once resp. twice),
but before any crop-detection chunk process; no detection process is ever
spawned on a failing run. -/
theorem C2_amended (n : ℤ) (rq d : ℚ) :
    (n ≤ 0 → cropdetect_video_run n rq d = ⟨[], .error .invalidArg⟩) ∧
    (0 < n → round3 rq ≤ 0 → cropdetect_video_run n rq d = ⟨[], .error .invalidArg⟩) ∧
    (0 < n → 0 < round3 rq → ((rnd (d / n) : ℤ) : ℚ) < 1/10 →
      cropdetect_video_run n rq d = ⟨[.probeDuration], .error .invalidArg⟩) ∧
    (0 < n → 0 < round3 rq → ¬(((rnd (d / n) : ℤ) : ℚ) < 1/10) → round3 (d / n) < 1 →
      cropdetect_video_run n rq d = ⟨[.probeDuration, .probeDuration], .error .invalidArg⟩) ∧
    (∀ e, (cropdetect_video_run n rq d).result = .error e →
      ProcEv.detectChunk ∉ (cropdetect_video_run n rq d).trace) := by
  refine ⟨?_, ?_, ?_, ?_, ?_⟩
  · intro h
    unfold cropdetect_video_run
    rw [if_pos h]
  · intro h1 h2
    unfold cropdetect_video_run
    rw [if_neg (by omega), if_pos h2]
  · intro h1 h2 h3
    unfold cropdetect_video_run
    rw [if_neg (by omega), if_neg (not_le.mpr h2), if_pos h3]
  · intro h1 h2 h3 h4
    unfold cropdetect_video_run
    rw [if_neg (by omega), if_neg (not_le.mpr h2), if_neg h3]
    unfold get_cropdetect_chunk_starts
    rw [if_neg (by omega), if_pos h4]
  · intro e he
    unfold cropdetect_video_run at he ⊢
    split_ifs at he ⊢ <;> simp_all
    rcases hg : get_cropdetect_chunk_starts d n with e2 | starts <;> simp_all

/-- Witness for the amended C2: a negative chunk count is rejected with an
empty process trace. -/
theorem C2_amended_witness :
    ((-1 : ℤ) ≤ 0) ∧
      cropdetect_video_run (-1) 20 60 = ⟨[], .error .invalidArg⟩ :=
  ⟨by norm_num, (C2_amended (-1) 20 60).1 (by norm_num)⟩

/-- Counterexample to C2 as stated: with 10 chunks requested on a 1-second
video the run fails with the invalid-argument (too-many-chunks) error, but
the duration probe has already been spawned, so the failure does not precede
every external process. -/
theorem C2_counterexample :
    (cropdetect_video_run 10 20 1).result = .error .invalidArg ∧
      (cropdetect_video_run 10 20 1).trace ≠ [] := by
  have h : cropdetect_video_run 10 20 1 = ⟨[.probeDuration], .error .invalidArg⟩ :=
    (C2_amended 10 20 1).2.2.1 (by norm_num) (by norm_num [round3, rnd])
      (by norm_num [rnd])
  rw [h]
  exact ⟨rfl, by simp⟩

/-- Claim C6 (amended): under validated arguments the slot size is
round(duration/numChunks) at second precision, the run fails invalid-argument
when it is below 0.1 s, and otherwise the effective per-chunk analysis window
is min of the millisecond-rounded requested duration and the slot size. -/
theorem C6_amended (n : ℤ) (rq d : ℚ) (hn : 0 < n) (hrq : 0 < round3 rq) :
    (((rnd (d / n) : ℤ) : ℚ) < 1/10 →
      (cropdetect_video_run n rq d).result = .error .invalidArg) ∧
    (∀ eff starts, (cropdetect_video_run n rq d).result = .ok (eff, starts) →
      eff = min (round3 rq) ((rnd (d / n) : ℤ) : ℚ)) := by
  constructor
  · intro h
    rw [(C2_amended n rq d).2.2.1 hn hrq h]
  · intro eff starts hok
    unfold cropdetect_video_run at hok
    rw [if_neg (by omega), if_neg (not_le.mpr hrq)] at hok
    by_cases hslot : ((rnd (d / n) : ℤ) : ℚ) < 1/10
    · rw [if_pos hslot] at hok
      exact absurd hok (by simp)
    · rw [if_neg hslot] at hok
      rcases hg : get_cropdetect_chunk_starts d n with e2 | st <;> rw [hg] at hok
      · exact absurd hok (by simp)
      · simp only [RunOut.mk.injEq] at hok
        have := (Prod.mk.injEq _ _ _ _).mp (Except.ok.inj hok)
        exact this.1.symm

/-- Witness for the amended C6: the claim's own example, a 20 s request with a
5 s slot (duration 10 s, two chunks) yields a 5 s effective window. -/
theorem C6_amended_witness :
    (0 : ℤ) < 2 ∧ (0:ℚ) < round3 20 ∧
      (5:ℚ) = min (round3 20) ((rnd ((10:ℚ) / ((2:ℤ):ℚ)) : ℤ) : ℚ) := by
  have hrun : cropdetect_video_run 2 20 10 = ⟨[.probeDuration, .probeDuration,
      .detectChunk, .detectChunk], .ok (5, [0, 5])⟩ := by
    unfold cropdetect_video_run
    rw [if_neg (by norm_num), if_neg (by norm_num [round3, rnd]),
      if_neg (by norm_num [rnd])]
    rw [get_chunk_starts_ok 10 2 (by norm_num) (by norm_num [round3, rnd]),
      (by simp : (2:ℤ).toNat = 2)]
    norm_num [List.range_succ, round3, rnd]
  refine ⟨by norm_num, by norm_num [round3, rnd], ?_⟩
  exact (C6_amended 2 20 10 (by norm_num) (by norm_num [round3, rnd])).2 5 [0, 5]
    (by rw [hrun])

/-- Counterexample to C6 as stated: a requested analysis duration of
20.0004 s (= 50001/2500) with a 30 s slot yields an effective window of
20 s (the requested duration is rounded to millisecond precision first),
not min(20.0004, 30) = 20.0004 s. -/
theorem C6_counterexample :
    (cropdetect_video_run 2 (50001/2500) 60).result = .ok (20, [0, 30]) ∧
      min ((50001:ℚ)/2500) ((rnd ((60:ℚ) / ((2:ℤ):ℚ)) : ℤ) : ℚ) ≠ 20 := by
  constructor
  · have hrun : cropdetect_video_run 2 (50001/2500) 60 = ⟨[.probeDuration, .probeDuration,
        .detectChunk, .detectChunk], .ok (20, [0, 30])⟩ := by
      unfold cropdetect_video_run
      rw [if_neg (by norm_num), if_neg (by norm_num [round3, rnd]),
        if_neg (by norm_num [rnd])]
      rw [get_chunk_starts_ok 60 2 (by norm_num) (by norm_num [round3, rnd]),
        (by simp : (2:ℤ).toNat = 2)]
      norm_num [List.range_succ, round3, rnd]
    rw [hrun]
  · have h30 : ((rnd ((60:ℚ) / ((2:ℤ):ℚ)) : ℤ) : ℚ) = 30 := by norm_num [rnd]
    rw [h30]
    norm_num

/-! ### The crop-vs-skip decision (C3, C10) -/

/-- Claim C3: the decision computes newWidth = width - outWidth and
newHeight = height - outHeight, returns Skip exactly when both
abs(width - newWidth) < 10 and abs(height - newHeight) < 10, and otherwise
returns Apply with the consensus fields verbatim; at 1920x1080 the margin
(9, 0) yields Skip and (10, 0) yields Apply. -/
theorem C3_crop_decision : ∀ (r : Rect) (w h : ℤ),
    (crop_decide r w h = .Skip ↔
      |w - (w - (r.outWidth : ℤ))| < 10 ∧ |h - (h - (r.outHeight : ℤ))| < 10) ∧
    (crop_decide r w h = .Skip ∨ crop_decide r w h = .Apply r) ∧
    crop_decide ⟨9, 0, 0, 0⟩ 1920 1080 = .Skip ∧
    crop_decide ⟨10, 0, 0, 0⟩ 1920 1080 = .Apply ⟨10, 0, 0, 0⟩ := by
  intro r w h
  refine ⟨?_, ?_, by decide, by decide⟩
  · unfold crop_decide
    split_ifs with hc
    · exact ⟨fun _ => hc, fun _ => rfl⟩
    · exact ⟨fun hh => absurd hh (by simp), fun hh => absurd hh hc⟩
  · unfold crop_decide
    split_ifs <;> simp

/-- The decision in dimension-free form: abs(width - (width - outWidth))
reduces to outWidth, so the condition only reads the consensus margins. -/
theorem crop_decide_eq (r : Rect) (w h : ℤ) : crop_decide r w h =
    if r.outWidth < 10 ∧ r.outHeight < 10 then CropOutcome.Skip else CropOutcome.Apply r := by
  unfold crop_decide
  have e1 : |w - (w - (r.outWidth : ℤ))| = (r.outWidth : ℤ) := by
    rw [sub_sub_cancel]
    exact abs_of_nonneg (by positivity)
  have e2 : |h - (h - (r.outHeight : ℤ))| = (r.outHeight : ℤ) := by
    rw [sub_sub_cancel]
    exact abs_of_nonneg (by positivity)
  rw [e1, e2]
  by_cases hW : r.outWidth < 10 <;> by_cases hH : r.outHeight < 10
  · rw [if_pos ⟨by exact_mod_cast hW, by exact_mod_cast hH⟩, if_pos ⟨hW, hH⟩]
  · rw [if_neg (fun hh => hH (by exact_mod_cast hh.2)), if_neg (fun hh => hH hh.2)]
  · rw [if_neg (fun hh => hW (by exact_mod_cast hh.1)), if_neg (fun hh => hW hh.1)]
  · rw [if_neg (fun hh => hW (by exact_mod_cast hh.1)), if_neg (fun hh => hW hh.1)]

/-- Claim C10: the Skip/Apply choice and the crop filter string do not depend
on the probed dimensions, because abs(width - (width - outWidth)) reduces to
outWidth; Skip holds exactly when outWidth < 10 and outHeight < 10, and the
Apply parameters are the consensus fields verbatim. -/
theorem C10_dims_independent : ∀ (r : Rect) (w1 h1 w2 h2 : ℤ),
    crop_decide r w1 h1 = crop_decide r w2 h2 ∧
    (crop_decide r w1 h1 = .Skip ↔ r.outWidth < 10 ∧ r.outHeight < 10) ∧
    outcomeFilter (crop_decide r w1 h1) = outcomeFilter (crop_decide r w2 h2) := by
  intro r w1 h1 w2 h2
  refine ⟨by rw [crop_decide_eq, crop_decide_eq], ?_, by rw [crop_decide_eq, crop_decide_eq]⟩
  rw [crop_decide_eq]
  by_cases hc : r.outWidth < 10 ∧ r.outHeight < 10
  · simp [hc]
  · simp [hc]

/-! ### Lemmas about the Counter model -/

section CounterLemmas

variable {α : Type} [DecidableEq α]

theorem update_nil (t : FreqTable α) : update t [] = t := rfl

theorem update_cons (t : FreqTable α) (k : α) (m : ℕ) (s : FreqTable α) :
    update t ((k, m) :: s) = update (incr t k m) s := rfl

theorem incr_incr_same (t : FreqTable α) (a : α) (m n : ℕ) :
    incr (incr t a m) a n = incr t a (m + n) := by
  induction t with
  | nil => simp [incr, Nat.add_assoc]
  | cons e t ih =>
    obtain ⟨k, mk⟩ := e
    by_cases hk : k = a
    · simp [incr, hk, Nat.add_assoc]
    · simp [incr, hk, ih]

theorem mem_keys_incr (t : FreqTable α) (a b : α) (n : ℕ) :
    b ∈ keys (incr t a n) ↔ b ∈ keys t ∨ b = a := by
  induction t with
  | nil => simp [incr, keys]
  | cons e t ih =>
    obtain ⟨k, m⟩ := e
    by_cases hk : k = a
    · subst hk
      simp [incr, keys]
      tauto
    · simp only [incr, if_neg hk, keys, List.map_cons, List.mem_cons] at ih ⊢
      tauto

theorem incr_comm_of_mem (t : FreqTable α) {a : α} (b : α) (m n : ℕ)
    (ha : a ∈ keys t) : incr (incr t a n) b m = incr (incr t b m) a n := by
  by_cases hab : a = b
  · subst hab
    rw [incr_incr_same, incr_incr_same, Nat.add_comm]
  · have hba : ¬ b = a := fun h => hab h.symm
    induction t with
    | nil => simp [keys] at ha
    | cons e t ih =>
      obtain ⟨k, mk⟩ := e
      by_cases hk1 : k = a
      · subst hk1
        simp [incr, hab, hba]
      · by_cases hk2 : k = b
        · subst hk2
          simp [incr, hk1, hba]
        · have ha2 : a ∈ keys t := by
            simp only [keys, List.map_cons, List.mem_cons] at ha
            rcases ha with h | h
            · exact absurd h.symm hk1
            · exact h
          simp [incr, hk1, hk2, ih ha2]

theorem update_incr_of_mem (d : FreqTable α) : ∀ (c : FreqTable α) (a : α) (n : ℕ),
    a ∈ keys c → update (incr c a n) d = incr (update c d) a n := by
  induction d with
  | nil => intro c a n _; rfl
  | cons e d ih =>
    intro c a n ha
    obtain ⟨k, m⟩ := e
    rw [update_cons, update_cons, incr_comm_of_mem c k m n ha]
    exact ih (incr c k m) a n ((mem_keys_incr c k a m).mpr (Or.inl ha))

theorem update_incr (d : FreqTable α) : ∀ (c : FreqTable α) (a : α) (n : ℕ),
    update c (incr d a n) = incr (update c d) a n := by
  induction d with
  | nil => intro c a n; rfl
  | cons e d ih =>
    intro c a n
    obtain ⟨k, m⟩ := e
    by_cases hk : k = a
    · subst hk
      rw [show incr ((k, m) :: d) k n = (k, m + n) :: d from by simp [incr],
        update_cons, update_cons,
        show incr c k (m + n) = incr (incr c k m) k n from (incr_incr_same c k m n).symm]
      exact update_incr_of_mem d (incr c k m) k n ((mem_keys_incr c k k m).mpr (Or.inr rfl))
    · rw [show incr ((k, m) :: d) a n = (k, m) :: incr d a n from by simp [incr, hk],
        update_cons, update_cons]
      exact ih (incr c k m) a n

theorem update_foldl (l : List α) : ∀ (c d : FreqTable α),
    update c (l.foldl (fun acc a => incr acc a 1) d) =
      l.foldl (fun acc a => incr acc a 1) (update c d) := by
  induction l with
  | nil => intro c d; rfl
  | cons a l ih =>
    intro c d
    simp only [List.foldl_cons]
    rw [ih c (incr d a 1), update_incr]

theorem update_counterOf (l : List α) (c : FreqTable α) :
    update c (counterOf l) = l.foldl (fun acc a => incr acc a 1) c := by
  unfold counterOf
  rw [update_foldl]
  rfl

/-- cropdetect_video's aggregation loop (merging the per-chunk counters in
canonical chunk-index order) builds exactly the counter of the concatenated
observation stream. -/
theorem cropdetect_counter_eq (chunks : List (List α)) :
    cropdetect_counter chunks = counterOf chunks.join := by
  suffices h : ∀ c : FreqTable α, (chunks.map counterOf).foldl update c =
      chunks.join.foldl (fun acc a => incr acc a 1) c from h []
  induction chunks with
  | nil => intro c; rfl
  | cons l ls ih =>
    intro c
    simp only [List.map_cons, List.foldl_cons, List.join_cons]
    rw [ih (update c (counterOf l)), update_counterOf, ← List.foldl_append]

theorem count_incr (t : FreqTable α) (a b : α) (n : ℕ) :
    count (incr t a n) b = count t b + if a = b then n else 0 := by
  induction t with
  | nil =>
    by_cases h : a = b <;> simp [incr, count, h]
  | cons e t ih =>
    obtain ⟨k, m⟩ := e
    by_cases hk : k = a
    · subst hk
      by_cases hb : k = b
      · subst hb
        simp [incr, count]
      · simp [incr, count, hb]
    · by_cases hb : k = b
      · have hab : ¬ a = b := fun h => hk (hb.trans h.symm)
        have hba : ¬ b = a := fun h => hab h.symm
        simp [incr, count, hk, hb, hab, hba]
      · simp [incr, count, hk, hb, ih]

theorem entrySum_nil (a : α) : entrySum ([] : FreqTable α) a = 0 := rfl

theorem entrySum_cons (k : α) (m : ℕ) (t : FreqTable α) (a : α) :
    entrySum ((k, m) :: t) a = (if k = a then m else 0) + entrySum t a := by
  simp [entrySum]

theorem count_update (d : FreqTable α) : ∀ (c : FreqTable α) (b : α),
    count (update c d) b = count c b + entrySum d b := by
  induction d with
  | nil => intro c b; simp [update_nil, entrySum_nil]
  | cons e d ih =>
    intro c b
    obtain ⟨k, m⟩ := e
    rw [update_cons, ih, count_incr, entrySum_cons]
    by_cases hkb : k = b <;> simp [hkb] <;> omega

theorem countR_nil (a : α) : countR a ([] : List α) = 0 := rfl

theorem countR_cons (a b : α) (l : List α) :
    countR a (b :: l) = (if b = a then 1 else 0) + countR a l := by
  by_cases h : b = a
  · simp [countR, List.filter_cons, h]
    omega
  · simp [countR, List.filter_cons, h]

theorem countR_append (a : α) (l1 l2 : List α) :
    countR a (l1 ++ l2) = countR a l1 + countR a l2 := by
  simp [countR, List.filter_append]

theorem countR_eq_zero_of_not_mem (a : α) (l : List α) (h : a ∉ l) : countR a l = 0 := by
  induction l with
  | nil => rfl
  | cons b l ih =>
    have hba : ¬ b = a := by
      intro hb
      rw [hb] at h
      exact h (List.mem_cons_self a l)
    rw [countR_cons, if_neg hba, ih (fun hb => h (List.mem_cons_of_mem b hb))]

theorem count_foldl_incr (l : List α) : ∀ (c : FreqTable α) (b : α),
    count (l.foldl (fun acc a => incr acc a 1) c) b = count c b + countR b l := by
  induction l with
  | nil => intro c b; simp [countR_nil]
  | cons a l ih =>
    intro c b
    simp only [List.foldl_cons]
    rw [ih, count_incr, countR_cons]
    by_cases hab : a = b <;> simp [hab] <;> omega

theorem count_counterOf (l : List α) (b : α) : count (counterOf l) b = countR b l := by
  unfold counterOf
  rw [count_foldl_incr]
  simp [count]

theorem keys_incr (t : FreqTable α) (a : α) (n : ℕ) :
    keys (incr t a n) = if a ∈ keys t then keys t else keys t ++ [a] := by
  induction t with
  | nil => simp [incr, keys]
  | cons e t ih =>
    obtain ⟨k, m⟩ := e
    by_cases hk : k = a
    · subst hk
      simp [incr, keys]
    · have hka : ¬ a = k := fun h => hk h.symm
      have hcond : (a ∈ keys ((k, m) :: t)) ↔ a ∈ keys t := by
        simp [keys, hka]
      have hstep : incr ((k, m) :: t) a n = (k, m) :: incr t a n := by
        simp [incr, hk]
      by_cases ha : a ∈ keys t
      · rw [hstep, if_pos (hcond.mpr ha)]
        show k :: keys (incr t a n) = keys ((k, m) :: t)
        rw [ih, if_pos ha]
        rfl
      · rw [hstep, if_neg (fun hh => ha (hcond.mp hh))]
        show k :: keys (incr t a n) = keys ((k, m) :: t) ++ [a]
        rw [ih, if_neg ha]
        rfl

theorem mem_keys_update (d : FreqTable α) : ∀ (c : FreqTable α) (b : α),
    b ∈ keys (update c d) ↔ b ∈ keys c ∨ b ∈ keys d := by
  induction d with
  | nil => intro c b; simp [update_nil, keys]
  | cons e d ih =>
    intro c b
    obtain ⟨k, m⟩ := e
    rw [update_cons, ih, mem_keys_incr]
    simp only [keys, List.map_cons, List.mem_cons]
    tauto

theorem wfT_incr (t : FreqTable α) (a : α) (n : ℕ) (h : WfT t) : WfT (incr t a n) := by
  unfold WfT at *
  rw [keys_incr]
  by_cases ha : a ∈ keys t
  · rw [if_pos ha]
    exact h
  · rw [if_neg ha]
    refine List.Nodup.append h (List.nodup_singleton a) ?_
    intro x hx hx2
    rw [List.mem_singleton] at hx2
    subst hx2
    exact ha hx

theorem wfT_update (d : FreqTable α) : ∀ c : FreqTable α, WfT c → WfT (update c d) := by
  induction d with
  | nil => intro c h; exact h
  | cons e d ih =>
    intro c h
    obtain ⟨k, m⟩ := e
    rw [update_cons]
    exact ih _ (wfT_incr _ _ _ h)

theorem wfT_nil : WfT ([] : FreqTable α) := List.nodup_nil

theorem wfT_counterOf (l : List α) : WfT (counterOf l) := by
  suffices h : ∀ c : FreqTable α, WfT c → WfT (l.foldl (fun acc a => incr acc a 1) c) from
    h [] wfT_nil
  induction l with
  | nil => intro c h; exact h
  | cons a l ih =>
    intro c h
    exact ih _ (wfT_incr _ _ _ h)

theorem entrySum_eq_zero_of_not_mem (t : FreqTable α) (b : α) (h : b ∉ keys t) :
    entrySum t b = 0 := by
  induction t with
  | nil => rfl
  | cons e t ih =>
    obtain ⟨k, m⟩ := e
    simp only [keys, List.map_cons, List.mem_cons] at h
    push_neg at h
    rw [entrySum_cons, if_neg (fun hh => h.1 hh.symm),
      ih (by simpa [keys] using h.2)]

theorem entrySum_eq_count (t : FreqTable α) (h : WfT t) (b : α) :
    entrySum t b = count t b := by
  induction t with
  | nil => rfl
  | cons e t ih =>
    obtain ⟨k, m⟩ := e
    have hk : k ∉ keys t ∧ WfT t := by
      simpa [WfT, keys] using h
    by_cases hkb : k = b
    · subst hkb
      rw [entrySum_cons, if_pos rfl, entrySum_eq_zero_of_not_mem t k hk.1]
      simp [count]
    · rw [entrySum_cons, if_neg hkb, ih hk.2]
      simp [count, hkb]

theorem mem_keys_foldl_incr (l : List α) : ∀ (c : FreqTable α) (b : α),
    b ∈ keys (l.foldl (fun acc a => incr acc a 1) c) ↔ b ∈ keys c ∨ b ∈ l := by
  induction l with
  | nil => intro c b; simp
  | cons a l ih =>
    intro c b
    simp only [List.foldl_cons]
    rw [ih, mem_keys_incr]
    simp only [List.mem_cons]
    tauto

theorem mem_keys_counterOf (l : List α) (b : α) : b ∈ keys (counterOf l) ↔ b ∈ l := by
  unfold counterOf
  rw [mem_keys_foldl_incr]
  simp [keys]

theorem countR_join (b : α) (ls : List (List α)) :
    countR b ls.join = (ls.map fun l => countR b l).sum := by
  induction ls with
  | nil => rfl
  | cons l ls ih =>
    simp only [List.join_cons, List.map_cons, List.sum_cons, countR_append, ih]

/-! ### First-occurrence order of the counter keys -/

theorem firstIdx_append_of_mem (a : α) (l : List α) (x : α) (h : a ∈ l) :
    firstIdx a (l ++ [x]) = firstIdx a l := by
  induction l with
  | nil => simp at h
  | cons b l ih =>
    by_cases hb : b = a
    · simp [firstIdx, hb]
    · rcases List.mem_cons.mp h with h1 | h1
      · exact absurd h1.symm hb
      · simp [firstIdx, hb, ih h1]

theorem firstIdx_lt_length (a : α) (l : List α) (h : a ∈ l) : firstIdx a l < l.length := by
  induction l with
  | nil => simp at h
  | cons b l ih =>
    by_cases hb : b = a
    · simp [firstIdx, hb]
    · rcases List.mem_cons.mp h with h1 | h1
      · exact absurd h1.symm hb
      · have := ih h1
        simp only [firstIdx, if_neg hb, List.length_cons]
        omega

theorem firstIdx_append_self (a : α) (l : List α) (h : a ∉ l) :
    firstIdx a (l ++ [a]) = l.length := by
  induction l with
  | nil => simp [firstIdx]
  | cons b l ih =>
    have hb : ¬ b = a := by
      intro hh
      rw [hh] at h
      exact h (List.mem_cons_self a l)
    simp only [List.cons_append, firstIdx, if_neg hb, List.length_cons]
    rw [show l.append [a] = l ++ [a] from rfl, ih (fun hh => h (List.mem_cons_of_mem b hh))]

theorem counterOf_snoc (l : List α) (a : α) :
    counterOf (l ++ [a]) = incr (counterOf l) a 1 := by
  unfold counterOf
  rw [List.foldl_append]
  rfl

/-- The keys of a counter are ordered by first occurrence in its input. -/
theorem pairwise_keys_counterOf (l : List α) :
    (keys (counterOf l)).Pairwise fun x y => firstIdx x l < firstIdx y l := by
  induction l using List.reverseRecOn with
  | nil => simp [counterOf, keys]
  | append_singleton l a ih =>
    rw [counterOf_snoc, keys_incr]
    by_cases ha : a ∈ keys (counterOf l)
    · rw [if_pos ha]
      refine List.Pairwise.imp_of_mem ?_ ih
      intro x y hx hy hR
      have hx2 : x ∈ l := (mem_keys_counterOf l x).mp hx
      have hy2 : y ∈ l := (mem_keys_counterOf l y).mp hy
      rw [firstIdx_append_of_mem x l a hx2, firstIdx_append_of_mem y l a hy2]
      exact hR
    · rw [if_neg ha, List.pairwise_append]
      have ha2 : a ∉ l := fun hh => ha ((mem_keys_counterOf l a).mpr hh)
      refine ⟨?_, List.pairwise_singleton _ _, ?_⟩
      · refine List.Pairwise.imp_of_mem ?_ ih
        intro x y hx hy hR
        have hx2 : x ∈ l := (mem_keys_counterOf l x).mp hx
        have hy2 : y ∈ l := (mem_keys_counterOf l y).mp hy
        rw [firstIdx_append_of_mem x l a hx2, firstIdx_append_of_mem y l a hy2]
        exact hR
      · intro x hx y hy
        rw [List.mem_singleton] at hy
        subst hy
        have hx2 : x ∈ l := (mem_keys_counterOf l x).mp hx
        rw [firstIdx_append_of_mem x l y hx2, firstIdx_append_self y l ha2]
        exact firstIdx_lt_length x l hx2

theorem snd_eq_count_of_mem (t : FreqTable α) (h : WfT t) (e : α × ℕ) (he : e ∈ t) :
    e.2 = count t e.1 := by
  induction t with
  | nil => simp at he
  | cons f t ih =>
    obtain ⟨k, m⟩ := f
    have hk : k ∉ keys t ∧ WfT t := by
      simpa [WfT, keys] using h
    rcases List.mem_cons.mp he with h1 | h1
    · subst h1
      simp [count]
    · have hke : ¬ k = e.1 := by
        intro hh
        exact hk.1 (hh ▸ (List.mem_map.mpr ⟨e, h1, rfl⟩))
      simp only [count, if_neg hke]
      exact ih hk.2 h1

theorem mem_of_key_mem (t : FreqTable α) (b : α) (h : b ∈ keys t) :
    (b, count t b) ∈ t := by
  induction t with
  | nil => simp [keys] at h
  | cons f t ih =>
    obtain ⟨k, m⟩ := f
    by_cases hk : k = b
    · subst hk
      simp [count]
    · simp only [keys, List.map_cons, List.mem_cons] at h
      rcases h with h1 | h1
      · exact absurd h1.symm hk
      · simp only [count, if_neg hk]
        exact List.mem_cons_of_mem _ (ih h1)

theorem pairwise_of_pairwise_map {β γ : Type} {f : β → γ} {R : γ → γ → Prop} :
    ∀ l : List β, (l.map f).Pairwise R → l.Pairwise fun a b => R (f a) (f b) := by
  intro l
  induction l with
  | nil => intro _; exact List.Pairwise.nil
  | cons a l ih =>
    intro h
    rw [List.map_cons, List.pairwise_cons] at h
    rw [List.pairwise_cons]
    exact ⟨fun b hb => h.1 (f b) (List.mem_map.mpr ⟨b, hb, rfl⟩), ih h.2⟩

theorem find?_split {β : Type} (l : List β) (p : β → Bool) (e : β) (h : l.find? p = some e) :
    p e = true ∧ ∃ pre post, l = pre ++ e :: post ∧ ∀ f ∈ pre, p f = false := by
  induction l with
  | nil => simp [List.find?] at h
  | cons x l ih =>
    by_cases hx : p x = true
    · rw [List.find?_cons_of_pos _ hx] at h
      obtain rfl : x = e := Option.some.inj h
      exact ⟨hx, [], l, rfl, by simp⟩
    · rw [List.find?_cons_of_neg _ hx] at h
      obtain ⟨hp, pre, post, hsplit, hpre⟩ := ih h
      refine ⟨hp, x :: pre, post, by rw [List.cons_append, hsplit], ?_⟩
      intro f hf
      rcases List.mem_cons.mp hf with h1 | h1
      · subst h1
        exact Bool.not_eq_true _ ▸ hx
      · exact hpre f h1

end CounterLemmas

/-! ### Consensus selection, aggregation, and the no-consensus outcome -/

/-- Claim C1: cropdetect_video merges the per-chunk counters in canonical
chunk-index order (ThreadPool.map returns results in input order, so the
merged table equals the counter of the concatenated observation stream,
independent of which worker finished first), and most_common(1) returns a
rectangle of maximal count whose first occurrence in that stream is no later
than the first occurrence of any rectangle tying the count. -/
theorem C1_consensus_tie_break (chunks : List (List Rect)) (r : Rect) (n : ℕ)
    (h : mostCommon1 (cropdetect_counter chunks) = some (r, n)) :
    cropdetect_counter chunks = counterOf chunks.join ∧
    (∀ q, countR q chunks.join ≤ countR r chunks.join) ∧
    (∀ q, q ∈ chunks.join → countR q chunks.join = countR r chunks.join →
      firstIdx r chunks.join ≤ firstIdx q chunks.join) := by
  have hmerge := cropdetect_counter_eq chunks
  rw [hmerge] at h
  have hwf : WfT (counterOf chunks.join) := wfT_counterOf chunks.join
  unfold mostCommon1 at h
  obtain ⟨hpred, pre, post, hsplit, hpre⟩ := find?_split _ _ _ h
  have hmem : (r, n) ∈ counterOf chunks.join := by
    rw [hsplit]
    exact List.mem_append_right _ (List.mem_cons_self _ _)
  have hall : ∀ f ∈ counterOf chunks.join, f.2 ≤ n := by
    intro f hf
    have := (List.all_eq_true.mp hpred) f hf
    simpa using this
  have hrn : n = count (counterOf chunks.join) r :=
    snd_eq_count_of_mem _ hwf (r, n) hmem
  have hrkeys : r ∈ keys (counterOf chunks.join) :=
    List.mem_map.mpr ⟨(r, n), hmem, rfl⟩
  refine ⟨hmerge, ?_, ?_⟩
  · intro q
    by_cases hq : q ∈ chunks.join
    · have hqmem : (q, count (counterOf chunks.join) q) ∈ counterOf chunks.join :=
        mem_of_key_mem _ q ((mem_keys_counterOf chunks.join q).mpr hq)
      have hle := hall _ hqmem
      calc countR q chunks.join = count (counterOf chunks.join) q :=
            (count_counterOf chunks.join q).symm
        _ ≤ n := hle
        _ = count (counterOf chunks.join) r := hrn
        _ = countR r chunks.join := count_counterOf chunks.join r
    · rw [countR_eq_zero_of_not_mem q chunks.join hq]
      exact Nat.zero_le _
  · intro q hqobs hcnt
    have hqkeys : q ∈ keys (counterOf chunks.join) :=
      (mem_keys_counterOf chunks.join q).mpr hqobs
    have hqmem : (q, count (counterOf chunks.join) q) ∈ counterOf chunks.join :=
      mem_of_key_mem _ q hqkeys
    have hqn : count (counterOf chunks.join) q = n := by
      rw [count_counterOf, hcnt, ← count_counterOf, ← hrn]
    have hpredq : ((counterOf chunks.join).all
        fun f => f.2 ≤ ((q, count (counterOf chunks.join) q) : Rect × ℕ).2) = true := by
      rw [List.all_eq_true]
      intro f hf
      have := hall f hf
      simp only [hqn]
      simpa using this
    have hnotpre : (q, count (counterOf chunks.join) q) ∉ pre := by
      intro hin
      have hfalse := hpre _ hin
      rw [hpredq] at hfalse
      exact Bool.noConfusion hfalse
    have hin2 : (q, count (counterOf chunks.join) q) ∈ ((r, n) :: post) := by
      have hm : (q, count (counterOf chunks.join) q) ∈ pre ++ (r, n) :: post := by
        rw [← hsplit]
        exact hqmem
      rcases List.mem_append.mp hm with h1 | h1
      · exact absurd h1 hnotpre
      · exact h1
    have hpw : (counterOf chunks.join).Pairwise
        (fun e f : Rect × ℕ => firstIdx e.1 chunks.join < firstIdx f.1 chunks.join) := by
      have hk := pairwise_keys_counterOf chunks.join
      unfold keys at hk
      exact @pairwise_of_pairwise_map (Rect × ℕ) Rect Prod.fst
        (fun x y => firstIdx x chunks.join < firstIdx y chunks.join)
        (counterOf chunks.join) hk
    rcases List.mem_cons.mp hin2 with heq | hpost
    · have : q = r := congrArg Prod.fst heq
      rw [this]
    · have hsub : ((r, n) :: post).Pairwise
          (fun e f : Rect × ℕ => firstIdx e.1 chunks.join < firstIdx f.1 chunks.join) := by
        rw [hsplit] at hpw
        exact hpw.sublist (List.sublist_append_right pre _)
      have hlt := (List.pairwise_cons.mp hsub).1 _ hpost
      exact le_of_lt hlt

/-- Witness for C1: two chunks observing rectangles A then B and B then A;
both tie at count 2 and the selection returns A, whose first occurrence is in
the earlier chunk. -/
theorem C1_consensus_tie_break_witness :
    mostCommon1 (cropdetect_counter
        [[Rect.mk 1 2 3 4, Rect.mk 5 6 7 8], [Rect.mk 5 6 7 8, Rect.mk 1 2 3 4]]) =
      some (Rect.mk 1 2 3 4, 2) ∧
    (cropdetect_counter [[Rect.mk 1 2 3 4, Rect.mk 5 6 7 8], [Rect.mk 5 6 7 8, Rect.mk 1 2 3 4]] =
      counterOf ([[Rect.mk 1 2 3 4, Rect.mk 5 6 7 8], [Rect.mk 5 6 7 8, Rect.mk 1 2 3 4]] :
        List (List Rect)).join ∧
    (∀ q, countR q ([[Rect.mk 1 2 3 4, Rect.mk 5 6 7 8],
        [Rect.mk 5 6 7 8, Rect.mk 1 2 3 4]] : List (List Rect)).join ≤
      countR (Rect.mk 1 2 3 4) ([[Rect.mk 1 2 3 4, Rect.mk 5 6 7 8],
        [Rect.mk 5 6 7 8, Rect.mk 1 2 3 4]] : List (List Rect)).join) ∧
    (∀ q, q ∈ ([[Rect.mk 1 2 3 4, Rect.mk 5 6 7 8],
        [Rect.mk 5 6 7 8, Rect.mk 1 2 3 4]] : List (List Rect)).join →
      countR q ([[Rect.mk 1 2 3 4, Rect.mk 5 6 7 8],
        [Rect.mk 5 6 7 8, Rect.mk 1 2 3 4]] : List (List Rect)).join =
        countR (Rect.mk 1 2 3 4) ([[Rect.mk 1 2 3 4, Rect.mk 5 6 7 8],
          [Rect.mk 5 6 7 8, Rect.mk 1 2 3 4]] : List (List Rect)).join →
      firstIdx (Rect.mk 1 2 3 4) ([[Rect.mk 1 2 3 4, Rect.mk 5 6 7 8],
          [Rect.mk 5 6 7 8, Rect.mk 1 2 3 4]] : List (List Rect)).join ≤
        firstIdx q ([[Rect.mk 1 2 3 4, Rect.mk 5 6 7 8],
          [Rect.mk 5 6 7 8, Rect.mk 1 2 3 4]] : List (List Rect)).join)) :=
  ⟨by decide, C1_consensus_tie_break
    [[Rect.mk 1 2 3 4, Rect.mk 5 6 7 8], [Rect.mk 5 6 7 8, Rect.mk 1 2 3 4]]
    (Rect.mk 1 2 3 4) 2 (by decide)⟩

/-- Claim C8: merging frequency tables sums the counts of equal keys and
unions the key sets, so it is commutative and associative up to table
equality as a mapping (same keys, same counts), and folding the per-chunk
counters over any permutation of the chunk list yields the same counts and
keys. -/
theorem C8_merge_assoc_comm (a b c : FreqTable Rect) (ha : WfT a) (hb : WfT b)
    (hc : WfT c) (ls ls2 : List (List Rect)) (hperm : ls.Perm ls2) :
    (∀ k, count (update a b) k = count (update b a) k) ∧
    (∀ k, k ∈ keys (update a b) ↔ k ∈ keys (update b a)) ∧
    (∀ k, count (update (update a b) c) k = count (update a (update b c)) k) ∧
    (∀ k, k ∈ keys (update (update a b) c) ↔ k ∈ keys (update a (update b c))) ∧
    (∀ k, count (cropdetect_counter ls) k = count (cropdetect_counter ls2) k) ∧
    (∀ k, k ∈ keys (cropdetect_counter ls) ↔ k ∈ keys (cropdetect_counter ls2)) := by
  refine ⟨?_, ?_, ?_, ?_, ?_, ?_⟩
  · intro k
    rw [count_update, count_update, entrySum_eq_count b hb, entrySum_eq_count a ha,
      Nat.add_comm]
  · intro k
    rw [mem_keys_update, mem_keys_update]
    tauto
  · intro k
    have h1 : count (update (update a b) c) k = count a k + count b k + count c k := by
      rw [count_update, count_update, entrySum_eq_count b hb, entrySum_eq_count c hc]
    have h2 : count (update a (update b c)) k = count a k + (count b k + count c k) := by
      rw [count_update, entrySum_eq_count _ (wfT_update c b hb), count_update,
        entrySum_eq_count c hc]
    omega
  · intro k
    rw [mem_keys_update, mem_keys_update, mem_keys_update, mem_keys_update]
    tauto
  · intro k
    rw [cropdetect_counter_eq, cropdetect_counter_eq, count_counterOf, count_counterOf,
      countR_join, countR_join]
    exact List.Perm.sum_eq (hperm.map _)
  · intro k
    rw [cropdetect_counter_eq, cropdetect_counter_eq, mem_keys_counterOf, mem_keys_counterOf]
    simp only [List.mem_join]
    constructor
    · rintro ⟨l, hl, hkl⟩
      exact ⟨l, hperm.subset hl, hkl⟩
    · rintro ⟨l, hl, hkl⟩
      exact ⟨l, hperm.symm.subset hl, hkl⟩

/-- Witness for C8 on concrete tables and a two-chunk permutation. -/
theorem C8_merge_assoc_comm_witness :
    WfT ([(Rect.mk 1 2 3 4, 1)] : FreqTable Rect) ∧
    WfT ([(Rect.mk 1 2 3 4, 2), (Rect.mk 5 6 7 8, 1)] : FreqTable Rect) ∧
    WfT ([(Rect.mk 5 6 7 8, 5)] : FreqTable Rect) ∧
    List.Perm ([[Rect.mk 1 2 3 4], [Rect.mk 5 6 7 8]] : List (List Rect))
      [[Rect.mk 5 6 7 8], [Rect.mk 1 2 3 4]] ∧
    (∀ k, count (update [(Rect.mk 1 2 3 4, 1)] [(Rect.mk 1 2 3 4, 2), (Rect.mk 5 6 7 8, 1)]) k =
      count (update [(Rect.mk 1 2 3 4, 2), (Rect.mk 5 6 7 8, 1)] [(Rect.mk 1 2 3 4, 1)]) k) ∧
    (∀ k, count (cropdetect_counter ([[Rect.mk 1 2 3 4], [Rect.mk 5 6 7 8]] : List (List Rect))) k =
      count (cropdetect_counter ([[Rect.mk 5 6 7 8], [Rect.mk 1 2 3 4]] : List (List Rect))) k) := by
  have hperm : List.Perm ([[Rect.mk 1 2 3 4], [Rect.mk 5 6 7 8]] : List (List Rect))
      [[Rect.mk 5 6 7 8], [Rect.mk 1 2 3 4]] := List.Perm.swap _ _ _
  have h := C8_merge_assoc_comm [(Rect.mk 1 2 3 4, 1)]
    [(Rect.mk 1 2 3 4, 2), (Rect.mk 5 6 7 8, 1)] [(Rect.mk 5 6 7 8, 5)]
    (by decide) (by decide) (by decide)
    [[Rect.mk 1 2 3 4], [Rect.mk 5 6 7 8]] [[Rect.mk 5 6 7 8], [Rect.mk 1 2 3 4]] hperm
  exact ⟨by decide, by decide, by decide, hperm, h.1, h.2.2.2.2.1⟩

/-- Claim C9: when sampling ends with an empty frequency table the run is a
successful negative result: crop_video reports "no crop point found" and
returns False (so no encode is spawned and no output file is created), and
main exits with code 0. -/
theorem C9_no_consensus (chunks : List (List Rect)) (hobs : chunks.join = [])
    (path : String) (hpath : path.length ≠ 0) (n : ℤ) (hn : 0 < n) (dur : ℚ)
    (hdur : 0 < dur) (w h : ℤ) :
    crop_video_run (cropdetect_counter chunks) w h = .noCropPoint ∧
    main_run path n dur (cropdetect_counter chunks) w h = (0, some .noCropPoint) ∧
    (∀ r, crop_video_run (cropdetect_counter chunks) w h ≠ .encoded r) := by
  have ht : cropdetect_counter chunks = ([] : FreqTable Rect) := by
    rw [cropdetect_counter_eq, hobs]
    rfl
  rw [ht]
  have hrun : crop_video_run ([] : FreqTable Rect) w h = .noCropPoint := rfl
  refine ⟨hrun, ?_, ?_⟩
  · unfold main_run
    rw [if_neg hpath, if_neg (by omega), if_neg (not_le.mpr hdur), hrun]
  · intro r hr
    rw [hrun] at hr
    exact CropRunResult.noConfusion hr

/-! ### Lemmas about the duration-probe model (C4) -/

theorem foldl_maxStep_some (l : List String) : ∀ m : String,
    ∃ m2, l.foldl maxStep (some m) = some m2 := by
  induction l with
  | nil => intro m; exact ⟨m, rfl⟩
  | cons s l ih =>
    intro m
    simp only [List.foldl_cons]
    show ∃ m2, l.foldl maxStep (if strLtB m.toList s.toList then some s else some m) = some m2
    by_cases hlt : strLtB m.toList s.toList
    · rw [if_pos hlt]
      exact ih s
    · rw [if_neg hlt]
      exact ih m

theorem maxToken_some_of_ne_nil (ts : List String) (h : ts ≠ []) :
    ∃ m, maxToken ts = some m := by
  rcases ts with _ | ⟨s, ts⟩
  · exact absurd rfl h
  · unfold maxToken
    simp only [List.foldl_cons]
    show ∃ m, ts.foldl maxStep (some s) = some m
    exact foldl_maxStep_some ts s

theorem tokenSeconds_ne_noDuration (raw : String) :
    tokenSeconds raw ≠ .error .noDuration := by
  unfold tokenSeconds
  by_cases hm : matches_dur_any raw
  · rw [if_pos hm]
    intro h
    split at h
    · split at h <;> simp_all
    · simp_all
  · rw [if_neg hm]
    intro h
    simp at h

theorem tokenSeconds_malformed_iff (raw : String) :
    tokenSeconds raw = .error .malformed ↔ matches_dur_any raw = false := by
  unfold tokenSeconds
  by_cases hm : matches_dur_any raw
  · rw [if_pos hm]
    constructor
    · intro h
      split at h
      · split at h <;> simp_all
      · simp_all
    · intro h
      rw [hm] at h
      exact absurd h (by simp)
  · rw [if_neg hm]
    simp only [Bool.not_eq_true] at hm
    exact ⟨fun _ => hm, fun _ => rfl⟩

theorem isDigit_ne_colon (a : Char) (h : a.isDigit = true) : a ≠ ':' := by
  intro hh
  rw [hh] at h
  exact absurd h (by decide)

theorem isDigit_ne_dot (a : Char) (h : a.isDigit = true) : a ≠ '.' := by
  intro hh
  rw [hh] at h
  exact absurd h (by decide)

theorem splitOnChar_cons (c a : Char) (cs : List Char) :
    splitOnChar c (a :: cs) =
      match splitOnChar c cs with
      | [] => [[a]]
      | g :: rest => if a = c then [] :: g :: rest else (a :: g) :: rest := rfl

theorem splitOnChar_ne_nil (c : Char) (cs : List Char) : splitOnChar c cs ≠ [] := by
  induction cs with
  | nil => simp [splitOnChar]
  | cons a cs ih =>
    rw [splitOnChar_cons]
    rcases h : splitOnChar c cs with _ | ⟨g, rest⟩
    · simp
    · by_cases hac : a = c <;> simp [hac]

theorem splitOnChar_of_not_mem (c : Char) (cs : List Char) (h : ∀ a ∈ cs, a ≠ c) :
    splitOnChar c cs = [cs] := by
  induction cs with
  | nil => rfl
  | cons a cs ih =>
    rw [splitOnChar_cons, ih (fun x hx => h x (List.mem_cons_of_mem a hx))]
    show (if a = c then [] :: cs :: ([] : List (List Char)) else [a :: cs]) = [a :: cs]
    rw [if_neg (h a (List.mem_cons_self a cs))]

theorem splitOnChar_append (c : Char) (A : List Char) : ∀ cs : List Char,
    (∀ a ∈ A, a ≠ c) → splitOnChar c (A ++ c :: cs) = A :: splitOnChar c cs := by
  induction A with
  | nil =>
    intro cs _
    rw [List.nil_append, splitOnChar_cons]
    rcases h : splitOnChar c cs with _ | ⟨g, rest⟩
    · exact absurd h (splitOnChar_ne_nil c cs)
    · show (if c = c then ([] :: g :: rest) else ((c :: g) :: rest)) = [] :: g :: rest
      rw [if_pos rfl]
  | cons a A ih =>
    intro cs hA
    rw [List.cons_append, splitOnChar_cons, ih cs (fun x hx => hA x (List.mem_cons_of_mem a hx))]
    show (if a = c then ([] :: A :: splitOnChar c cs) else ((a :: A) :: splitOnChar c cs)) =
      (a :: A) :: splitOnChar c cs
    rw [if_neg (hA a (List.mem_cons_self a A))]

theorem afterDigitsColon_some (cs rest : List Char) (h : afterDigitsColon cs = some rest) :
    cs = cs.takeWhile Char.isDigit ++ ':' :: rest ∧ cs.takeWhile Char.isDigit ≠ [] ∧
      ∀ a ∈ cs.takeWhile Char.isDigit, a.isDigit = true := by
  unfold afterDigitsColon at h
  by_cases he : (cs.takeWhile Char.isDigit).isEmpty
  · rw [if_pos he] at h
    exact absurd h (by simp)
  · rw [if_neg he] at h
    rcases hd : cs.dropWhile Char.isDigit with _ | ⟨c, r⟩
    · rw [hd] at h
      exact absurd h (by simp)
    · rw [hd] at h
      have h2 : (if c = ':' then some r else none) = some rest := h
      by_cases hc : c = ':'
      · rw [if_pos hc] at h2
        have hr : r = rest := Option.some.inj h2
        subst hr
        subst hc
        refine ⟨?_, ?_, ?_⟩
        · rw [← hd]
          exact (List.takeWhile_append_dropWhile Char.isDigit cs).symm
        · intro hnil
          rw [List.isEmpty_iff] at he
          exact he hnil
        · intro a ha
          exact List.mem_takeWhile_imp ha
      · rw [if_neg hc] at h2
        exact absurd h2 (by simp)

theorem tailAnyMatch_true (t : List Char) (h : tailAnyMatch t = true) :
    ∃ C x D, t = C ++ x :: D ∧ C ≠ [] ∧ D ≠ [] ∧
      (∀ a ∈ C, a.isDigit = true) ∧ ∀ a ∈ D, a.isDigit = true := by
  unfold tailAnyMatch at h
  rw [List.any_eq_true] at h
  obtain ⟨i, hi, hcond⟩ := h
  rw [List.mem_range] at hi
  simp only [Bool.and_eq_true, decide_eq_true_eq] at hcond
  obtain ⟨⟨⟨h0, hC⟩, hlen⟩, hD⟩ := hcond
  refine ⟨t.take i, t[i], t.drop (i + 1), ?_, ?_, ?_, ?_, ?_⟩
  · conv_lhs => rw [← List.take_append_drop i t]
    rw [List.drop_eq_getElem_cons hi]
  · intro hnil
    have hlt := List.length_take i t
    rw [hnil] at hlt
    simp at hlt
    omega
  · intro hnil
    have hld := List.length_drop (i + 1) t
    rw [hnil] at hld
    simp at hld
    omega
  · exact fun a ha => (List.all_eq_true.mp hC) a ha
  · exact fun a ha => (List.all_eq_true.mp hD) a ha

theorem tailDotMatch_true (t : List Char) (h : tailDotMatch t = true) :
    ∃ C D, t = C ++ '.' :: D ∧ C ≠ [] ∧ D ≠ [] ∧
      (∀ a ∈ C, a.isDigit = true) ∧ ∀ a ∈ D, a.isDigit = true := by
  unfold tailDotMatch at h
  rw [List.any_eq_true] at h
  obtain ⟨i, hi, hcond⟩ := h
  rw [List.mem_range] at hi
  simp only [Bool.and_eq_true, decide_eq_true_eq] at hcond
  obtain ⟨⟨⟨⟨h0, hC⟩, hdot⟩, hlen⟩, hD⟩ := hcond
  rw [List.getD_eq_getElem t ' ' hi] at hdot
  refine ⟨t.take i, t.drop (i + 1), ?_, ?_, ?_, ?_, ?_⟩
  · conv_lhs => rw [← List.take_append_drop i t]
    rw [List.drop_eq_getElem_cons hi, hdot]
  · intro hnil
    have hlt := List.length_take i t
    rw [hnil] at hlt
    simp at hlt
    omega
  · intro hnil
    have hld := List.length_drop (i + 1) t
    rw [hnil] at hld
    simp at hld
    omega
  · exact fun a ha => (List.all_eq_true.mp hC) a ha
  · exact fun a ha => (List.all_eq_true.mp hD) a ha

theorem tailAnyMatch_of_tailDotMatch (t : List Char) (h : tailDotMatch t = true) :
    tailAnyMatch t = true := by
  unfold tailDotMatch at h
  unfold tailAnyMatch
  rw [List.any_eq_true] at h ⊢
  obtain ⟨i, hi, hc⟩ := h
  refine ⟨i, hi, ?_⟩
  simp only [Bool.and_eq_true, decide_eq_true_eq] at hc ⊢
  obtain ⟨⟨⟨⟨h1, h2⟩, _⟩, h4⟩, h5⟩ := hc
  exact ⟨⟨⟨h1, h2⟩, h4⟩, h5⟩

theorem matches_dur_any_of_spec (s : String) (h : matches_dur_spec s = true) :
    matches_dur_any s = true := by
  unfold matches_dur_spec at h
  unfold matches_dur_any
  rcases h1 : afterDigitsColon s.toList with _ | r1 <;> simp only [h1] at h ⊢
  · exact absurd h (by simp)
  · rcases h2 : afterDigitsColon r1 with _ | t <;> simp only [h2] at h ⊢
    · exact absurd h (by simp)
    · exact tailAnyMatch_of_tailDotMatch t h

theorem matches_dur_spec_decomp (s : String) (h : matches_dur_spec s = true) :
    ∃ A B C D : List Char,
      s.toList = A ++ ':' :: (B ++ ':' :: (C ++ '.' :: D)) ∧
      A ≠ [] ∧ B ≠ [] ∧ C ≠ [] ∧ D ≠ [] ∧
      (∀ a ∈ A, a.isDigit = true) ∧ (∀ a ∈ B, a.isDigit = true) ∧
      (∀ a ∈ C, a.isDigit = true) ∧ ∀ a ∈ D, a.isDigit = true := by
  unfold matches_dur_spec at h
  rcases h1 : afterDigitsColon s.toList with _ | r1 <;> simp only [h1] at h
  · exact absurd h (by simp)
  · rcases h2 : afterDigitsColon r1 with _ | t <;> simp only [h2] at h
    · exact absurd h (by simp)
    · obtain ⟨hA, hAne, hAdig⟩ := afterDigitsColon_some _ _ h1
      obtain ⟨hB, hBne, hBdig⟩ := afterDigitsColon_some _ _ h2
      obtain ⟨C, D, hCD, hCne, hDne, hCdig, hDdig⟩ := tailDotMatch_true t h
      refine ⟨s.toList.takeWhile Char.isDigit, r1.takeWhile Char.isDigit, C, D,
        ?_, hAne, hBne, hCne, hDne, hAdig, hBdig, hCdig, hDdig⟩
      exact hA.trans (by rw [← hCD, ← hB])

theorem parseFloatL_digits (cs : List Char) (h1 : cs ≠ [])
    (h2 : ∀ a ∈ cs, a.isDigit = true) :
    parseFloatL cs = some ((natOfDigits cs : ℕ) : ℚ) := by
  unfold parseFloatL
  rw [splitOnChar_of_not_mem '.' cs (fun a ha => isDigit_ne_dot a (h2 a ha))]
  show (if cs ≠ [] ∧ cs.all Char.isDigit then some ((natOfDigits cs : ℕ) : ℚ) else none) =
    some ((natOfDigits cs : ℕ) : ℚ)
  rw [if_pos ⟨h1, List.all_eq_true.mpr h2⟩]

theorem parseFloatL_dot (C D : List Char) (hC : C ≠ [])
    (hCdig : ∀ a ∈ C, a.isDigit = true) (hDdig : ∀ a ∈ D, a.isDigit = true) :
    parseFloatL (C ++ '.' :: D) =
      some ((natOfDigits C : ℕ) + (natOfDigits D : ℕ) / (10 : ℚ) ^ D.length) := by
  unfold parseFloatL
  rw [splitOnChar_append '.' C D (fun a ha => isDigit_ne_dot a (hCdig a ha)),
    splitOnChar_of_not_mem '.' D (fun a ha => isDigit_ne_dot a (hDdig a ha))]
  show (if (C ≠ [] ∨ D ≠ []) ∧ C.all Char.isDigit ∧ D.all Char.isDigit then
      some ((natOfDigits C : ℕ) + (natOfDigits D : ℕ) / (10 : ℚ) ^ D.length)
    else none) = _
  rw [if_pos ⟨Or.inl hC, List.all_eq_true.mpr hCdig, List.all_eq_true.mpr hDdig⟩]

theorem tokenSeconds_of_spec (raw : String) (h : matches_dur_spec raw = true) :
    ∃ hs ms ss hq mq sq, splitOnChar ':' raw.toList = [hs, ms, ss] ∧
      parseFloatL hs = some hq ∧ parseFloatL ms = some mq ∧ parseFloatL ss = some sq ∧
      tokenSeconds raw = .ok (hq * 3600 + mq * 60 + sq) := by
  obtain ⟨A, B, C, D, hdec, hAne, hBne, hCne, hDne, hAdig, hBdig, hCdig, hDdig⟩ :=
    matches_dur_spec_decomp raw h
  have hany := matches_dur_any_of_spec raw h
  have hTnc : ∀ a ∈ C ++ '.' :: D, a ≠ ':' := by
    intro a ha
    rcases List.mem_append.mp ha with h1 | h1
    · exact isDigit_ne_colon a (hCdig a h1)
    · rcases List.mem_cons.mp h1 with h2 | h2
      · rw [h2]
        decide
      · exact isDigit_ne_colon a (hDdig a h2)
  have hsplit : splitOnChar ':' raw.toList = [A, B, C ++ '.' :: D] := by
    rw [hdec, splitOnChar_append ':' A _ (fun a ha => isDigit_ne_colon a (hAdig a ha)),
      splitOnChar_append ':' B _ (fun a ha => isDigit_ne_colon a (hBdig a ha)),
      splitOnChar_of_not_mem ':' _ hTnc]
  have hpA := parseFloatL_digits A hAne hAdig
  have hpB := parseFloatL_digits B hBne hBdig
  have hpT := parseFloatL_dot C D hCne hCdig hDdig
  refine ⟨A, B, C ++ '.' :: D, _, _, _, hsplit, hpA, hpB, hpT, ?_⟩
  unfold tokenSeconds
  rw [if_pos hany, hsplit]
  show (match parseFloatL A, parseFloatL B, parseFloatL (C ++ '.' :: D) with
    | some h, some m, some s => Except.ok (h * 3600 + m * 60 + s)
    | _, _, _ => Except.error DurErr.valueError) = _
  rw [hpA, hpB, hpT]

/-- Claim C4 (amended): the probe fails no-duration-found exactly when no
token was extracted; with a maximal token present, it fails malformed-duration
exactly when that token does not fullmatch the source's regex
`\d+:\d+:\d+.\d+`, whose dot is unescaped and therefore matches any character
(not only a literal dot); and whenever the token does match the stricter
literal-dot pattern the probe splits it into exactly three fields and returns
hours*3600 + minutes*60 + seconds. -/
theorem C4_amended (ts : List String) :
    (get_media_duration ts = .error .noDuration ↔ ts = []) ∧
    (∀ raw, maxToken ts = some raw →
      (get_media_duration ts = .error .malformed ↔ matches_dur_any raw = false)) ∧
    (∀ raw, maxToken ts = some raw → matches_dur_spec raw = true →
      ∃ hs ms ss hq mq sq, splitOnChar ':' raw.toList = [hs, ms, ss] ∧
        parseFloatL hs = some hq ∧ parseFloatL ms = some mq ∧ parseFloatL ss = some sq ∧
        get_media_duration ts = .ok (hq * 3600 + mq * 60 + sq)) := by
  refine ⟨?_, ?_, ?_⟩
  · constructor
    · intro h
      by_contra hne
      obtain ⟨m, hm⟩ := maxToken_some_of_ne_nil ts hne
      unfold get_media_duration at h
      rw [hm] at h
      exact tokenSeconds_ne_noDuration m h
    · intro h
      subst h
      rfl
  · intro raw hmax
    unfold get_media_duration
    rw [hmax]
    exact tokenSeconds_malformed_iff raw
  · intro raw hmax hspec
    obtain ⟨hs, ms, ss, hq, mq, sq, hsplit, hp1, hp2, hp3, hts⟩ :=
      tokenSeconds_of_spec raw hspec
    refine ⟨hs, ms, ss, hq, mq, sq, hsplit, hp1, hp2, hp3, ?_⟩
    unfold get_media_duration
    simp only [hmax]
    exact hts

/-- Witness for the amended C4 on the well-formed token 0:1:2.5. -/
theorem C4_amended_witness :
    maxToken ["0:1:2.5"] = some "0:1:2.5" ∧ matches_dur_spec "0:1:2.5" = true ∧
      ∃ hs ms ss hq mq sq, splitOnChar ':' ("0:1:2.5").toList = [hs, ms, ss] ∧
        parseFloatL hs = some hq ∧ parseFloatL ms = some mq ∧ parseFloatL ss = some sq ∧
        get_media_duration ["0:1:2.5"] = .ok (hq * 3600 + mq * 60 + sq) :=
  ⟨rfl, by decide, (C4_amended ["0:1:2.5"]).2.2 "0:1:2.5" rfl (by decide)⟩

/-- Counterexample to C4 as stated: the token 12:34:5999 does not match the
literal-dot pattern, yet the probe does not fail malformed-duration: the
unescaped dot of the source's regex matches the digit 9 and the probe
successfully returns 12*3600 + 34*60 + 5999 = 51239 seconds. -/
theorem C4_counterexample :
    get_media_duration ["12:34:5999"] = .ok 51239 ∧
      matches_dur_spec "12:34:5999" = false := by
  refine ⟨?_, by decide⟩
  show tokenSeconds "12:34:5999" = Except.ok 51239
  unfold tokenSeconds
  rw [if_pos (show matches_dur_any "12:34:5999" = true from by decide)]
  rw [show splitOnChar ':' ("12:34:5999").toList =
    [['1', '2'], ['3', '4'], ['5', '9', '9', '9']] from by decide]
  show (match parseFloatL ['1', '2'], parseFloatL ['3', '4'],
      parseFloatL ['5', '9', '9', '9'] with
    | some h, some m, some s => Except.ok (h * 3600 + m * 60 + s)
    | _, _, _ => Except.error DurErr.valueError) = Except.ok 51239
  rw [show parseFloatL ['1', '2'] = some ((12 : ℕ) : ℚ) from by decide,
    show parseFloatL ['3', '4'] = some ((34 : ℕ) : ℚ) from by decide,
    show parseFloatL ['5', '9', '9', '9'] = some ((5999 : ℕ) : ℚ) from by decide]
  show Except.ok (((12 : ℕ) : ℚ) * 3600 + ((34 : ℕ) : ℚ) * 60 + ((5999 : ℕ) : ℚ)) =
    Except.ok 51239
  have : ((12 : ℕ) : ℚ) * 3600 + ((34 : ℕ) : ℚ) * 60 + ((5999 : ℕ) : ℚ) = 51239 := by
    push_cast
    norm_num
  rw [this]

/-- Witness for C9: two chunks with no detection events, valid arguments. -/
theorem C9_no_consensus_witness :
    ([[], []] : List (List Rect)).join = [] ∧ ("out.mkv".length ≠ 0) ∧ (0:ℤ) < 10 ∧
      (0:ℚ) < 20 ∧
      crop_video_run (cropdetect_counter ([[], []] : List (List Rect))) 1920 1080 =
        .noCropPoint ∧
      main_run "out.mkv" 10 20 (cropdetect_counter ([[], []] : List (List Rect))) 1920 1080 =
        (0, some .noCropPoint) := by
  have h := C9_no_consensus [[], []] (by decide) "out.mkv" (by decide) 10 (by norm_num)
    20 (by norm_num) 1920 1080
  exact ⟨by decide, by decide, by norm_num, by norm_num, h.1, h.2.1⟩

end FF
